import Mathlib

/-!
Shallow embedding of `src/parse.py` (a PDF-invoice renamer for Eurowings and
Free2Move receipts) together with proofs about its extraction, filename-building
and batch-driver logic.

Modelling conventions:
* Text is handled as `String` / `List Char`.  Python's `str.lower` and the
  regex classes `\s` and `\d` are modelled over ASCII (`Char.toLower`,
  the six ASCII whitespace characters, `'0'-'9'`).  The Python versions also
  fold or match a few rare Unicode characters; no string manipulated by the
  program depends on those.
* Monetary amounts are modelled exactly, in cents (`Nat`): every amount the
  program ever converts with `float()` has the shape `digits.dd` with at most
  four integer digits, a range on which IEEE `float` conversion and `"%.2f"`
  formatting are injective and lossless, so no floating-point behaviour is
  observable.
* `datetime` values carry no time component here; `strptime` is modelled as a
  calendar-validity check (`strptimeDMY?`).
* The regular expressions are compiled by hand into deterministic matchers.
  Wherever the Python engine could backtrack, a comment records why the
  deterministic version computes the same match (the relevant character sets
  are disjoint, and the alternations `Flight|Flug`, `Flight Number|Flugnummer`,
  `VAT|MwSt` diverge within their common prefixes, so at most one branch can
  succeed at a given position).
-/

namespace FlightReceipt

/-- ASCII whitespace, the characters matched by Python's `\s` on the inputs
this program handles (space, tab, newline, carriage return, vertical tab,
form feed). -/
def isPyWS (c : Char) : Bool :=
  c = ' ' || c = '\t' || c = '\n' || c = '\r' || c = '\x0b' || c = '\x0c'

/-- Numeric value of a list of decimal digit characters (most significant
first), as produced by the regex captures. -/
def natOfDigits (ds : List Char) : Nat :=
  ds.foldl (fun n c => n * 10 + (c.toNat - 48)) 0

/-- Case-insensitive literal match: `matchCI lit cs` consumes `lit` (given in
lowercase) from the front of `cs`, comparing via ASCII `Char.toLower`, and
returns the rest of the input on success.  This models matching a literal
under `re.IGNORECASE`. -/
def matchCI : List Char → List Char → Option (List Char)
  | [], cs => some cs
  | _ :: _, [] => none
  | l :: ls, c :: cs => if c.toLower = l then matchCI ls cs else none

/-- Calendar date as handled by `datetime` (no time component is ever used by
the program). -/
structure Date where
  year : Nat
  month : Nat
  day : Nat
deriving DecidableEq, Repr

/-- Leap-year rule used by `datetime`. -/
def isLeapYear (y : Nat) : Bool :=
  (y % 4 = 0 && y % 100 ≠ 0) || y % 400 = 0

/-- Number of days of month `m` in year `y` (for `m` between 1 and 12). -/
def daysInMonth (y m : Nat) : Nat :=
  if m = 2 then (if isLeapYear y then 29 else 28)
  else if m = 4 ∨ m = 6 ∨ m = 9 ∨ m = 11 then 30
  else 31

/-- Model of `datetime.strptime(f"{d}.{m}.{y}", "%d.%m.%Y")`: succeeds exactly
when the components form a real calendar date (`datetime` additionally
requires `year ≥ MINYEAR = 1`); a `ValueError` is modelled as `none`. -/
def strptimeDMY? (d m y : Nat) : Option Date :=
  if 1 ≤ y ∧ 1 ≤ m ∧ m ≤ 12 ∧ 1 ≤ d ∧ d ≤ daysInMonth y m then
    some ⟨y, m, d⟩
  else none

/-- Chronological order on dates (year, then month, then day). -/
def dateLe (a b : Date) : Prop :=
  a.year < b.year ∨
    (a.year = b.year ∧ (a.month < b.month ∨ (a.month = b.month ∧ a.day ≤ b.day)))

instance : DecidableRel dateLe := fun a b => by
  unfold dateLe; infer_instance

instance : IsTotal Date dateLe := by
  constructor; intro a b; unfold dateLe; omega

instance : IsTrans Date dateLe := by
  constructor; intro a b c; unfold dateLe; omega

theorem dateLe_refl (a : Date) : dateLe a a := by
  unfold dateLe; omega

/-- Matcher for `\d{1,2}\.`: the run of leading digits must have length 1 or 2
and be followed by a dot.  (The Python engine first tries two digits, then
one; a shorter take always leaves a digit — never a dot — as the next
character, so the whole alternative set succeeds exactly when the full digit
run has length 1 or 2 and the character after it is a dot.) -/
def matchD12Dot (cs : List Char) : Option (Nat × List Char) :=
  let ds := cs.takeWhile Char.isDigit
  let rest := cs.dropWhile Char.isDigit
  if ds.length = 1 ∨ ds.length = 2 then
    match rest with
    | '.' :: r => some (natOfDigits ds, r)
    | _ => none
  else none

/-- Matcher for `\d{4}`: exactly four digit characters. -/
def matchD4 : List Char → Option (Nat × List Char)
  | a :: b :: c :: d :: r =>
    if a.isDigit && b.isDigit && c.isDigit && d.isDigit then
      some (natOfDigits [a, b, c, d], r)
    else none
  | _ => none

/-- Matcher for `(?:Flight Number|Flugnummer)[:\s]*?(EW\s*\d{3,4})` anchored at
the current position.  The lazy `[:\s]*?` is deterministic here: `E`/`e` is
not a colon or whitespace, so the only way the tail can match is after the
whole `[:\s]` run.  `\d{3,4}` greedily takes up to four digits of a run of at
least three.  Returns the capture with Python's `flight_no.replace(" ", "")`
applied (only plain spaces are removed). -/
def flightNoAt (cs : List Char) : Option String :=
  (match matchCI (("flight number").toList) cs with
   | some r => some r
   | none => matchCI (("flugnummer").toList) cs).bind fun r1 =>
    match r1.dropWhile (fun c => c = ':' || isPyWS c) with
    | e :: w :: r3 =>
      if e.toLower = 'e' && w.toLower = 'w' then
        let ws := r3.takeWhile isPyWS
        let r4 := r3.dropWhile isPyWS
        let ds := r4.takeWhile Char.isDigit
        if 3 ≤ ds.length then
          some (String.mk (([e, w] ++ ws ++ ds.take 4).filter (fun c => c ≠ ' ')))
        else none
      else none
    | _ => none

/-- Search for `.*?(?:Flight Number|Flugnummer)...` from the current position:
the lazy `.*?` tries successive start offsets left to right; `.` does not
match a newline, so the search stops at one. -/
def findFlightNo : List Char → Option String
  | [] => none
  | c :: cs =>
    match flightNoAt (c :: cs) with
    | some r => some r
    | none => if c = '\n' then none else findFlightNo cs

/-- Attempt of the whole pattern
`(?:Flight|Flug):\s*(\d{1,2}\.\d{1,2}\.\d{4}).*?(?:Flight Number|Flugnummer)[:\s]*?(EW\s*\d{3,4})`
at one position; returns (day, month, year) of the first capture and the
flight-number capture.  `\s*` before the date is deterministic because `\s`
and `\d` are disjoint. -/
def flightMatchAt (cs : List Char) : Option ((Nat × Nat × Nat) × String) :=
  (match matchCI (("flight").toList) cs with
   | some r => some r
   | none => matchCI (("flug").toList) cs).bind fun r1 =>
    match r1 with
    | ':' :: r2 =>
      (matchD12Dot (r2.dropWhile isPyWS)).bind fun dr =>
      (matchD12Dot dr.2).bind fun mr =>
      (matchD4 mr.2).bind fun yr =>
      (findFlightNo yr.2).map fun fno => ((dr.1, mr.1, yr.1), fno)
    | _ => none

/-- Model of `flight_pattern.search(line)`: try the pattern at every start
position, leftmost first. -/
def reSearchFlight : List Char → Option ((Nat × Nat × Nat) × String)
  | [] => none
  | c :: cs =>
    match flightMatchAt (c :: cs) with
    | some m => some m
    | none => reSearchFlight cs

/-- One iteration of the loop body of `parse_dates_from_text`: regex search,
then `strptime` (a `ValueError` skips the line), then space removal in the
flight number (already done in `flightNoAt`). -/
def flightLineParse (line : String) : Option (Date × String) :=
  (reSearchFlight line.toList).bind fun m =>
    (strptimeDMY? m.1.1 m.1.2.1 m.1.2.2).map fun dt => (dt, m.2)

/-- The `flights` list accumulated by `parse_dates_from_text`. -/
def flightsOf (lines : List String) : List (Date × String) :=
  lines.filterMap flightLineParse

/-- Comparison used by `flights.sort(key=lambda x: x[0])`. -/
def flightLe (a b : Date × String) : Prop := dateLe a.1 b.1

instance : DecidableRel flightLe := fun a b => by
  unfold flightLe; infer_instance

instance : IsTotal (Date × String) flightLe := by
  constructor; intro a b; exact IsTotal.total (r := dateLe) a.1 b.1

instance : IsTrans (Date × String) flightLe := by
  constructor; intro a b c hab hbc; exact IsTrans.trans (r := dateLe) _ _ _ hab hbc

/-- Model of `parse_dates_from_text` (src/parse.py, lines 63-98): collect one
(date, flight-number) pair per line on which the combined bilingual pattern
matches and the date is valid, sort ascending by date (Python's stable
`list.sort`; only the dates are observable in the result), and return the two
earliest dates. -/
def parse_dates_from_text (lines : List String) : Option Date × Option Date :=
  let flights := flightsOf lines
  if flights.isEmpty then (none, none)
  else
    match List.insertionSort flightLe flights with
    | [] => (none, none)
    | [a] => (some a.1, none)
    | a :: b :: _ => (some a.1, some b.1)

/-- ASCII model of Python's `str.lower()`. -/
def pyLower (s : String) : String :=
  String.mk (s.toList.map Char.toLower)

/-- Boolean list-prefix test (used only to implement the substring test). -/
def prefOf : List Char → List Char → Bool
  | [], _ => true
  | _ :: _, [] => false
  | a :: as, b :: bs => a = b && prefOf as bs

/-- Substring containment on character lists: Python's `needle in hay`. -/
def subOf (needle : List Char) : List Char → Bool
  | [] => needle.isEmpty
  | c :: tl => prefOf needle (c :: tl) || subOf needle tl

/-- Python's `needle in hay` on strings. -/
def strContains (hay needle : String) : Bool :=
  subOf needle.toList hay.toList

/-- Splitting a character list at separator runs, dropping empty pieces; the
first argument accumulates the current piece in reverse. -/
def splitRunsAux (sep : Char → Bool) : List Char → List Char → List (List Char)
  | acc, [] => if acc.isEmpty then [] else [acc.reverse]
  | acc, c :: cs =>
    if sep c then
      (if acc.isEmpty then splitRunsAux sep [] cs else acc.reverse :: splitRunsAux sep [] cs)
    else splitRunsAux sep (c :: acc) cs

/-- Model of Python's `s.split()` (split on whitespace runs, dropping empty
pieces). -/
def pyWords (l : List Char) : List (List Char) := splitRunsAux isPyWS [] l

/-- The constant `KNOWN_PASSENGERS` (src/parse.py, line 49). -/
def KNOWN_PASSENGERS : List String := ["Andre Ziemke", "Thomas Stoeckel"]

/-- The variant `" ".join(normalized.split()[::-1])` of a lowercased name. -/
def reversedVariant (normalized : String) : String :=
  String.intercalate (" ") (((pyWords normalized.toList).reverse).map String.mk)

/-- The variant `normalized.replace(" ", "/")` of a lowercased name (each
plain space becomes a slash). -/
def slashVariant (normalized : String) : String :=
  String.mk (normalized.toList.map (fun c => if c = ' ' then '/' else c))

/-- Loop body of `parse_name_from_text`: return the first allow-list entry one
of whose three variants occurs in the joined lowercase text. -/
def findKnownName : List String → String → Option String
  | [], _ => none
  | n :: ns, text =>
    if strContains text (pyLower n) || strContains text (reversedVariant (pyLower n))
        || strContains text (slashVariant (pyLower n)) then
      some n
    else findKnownName ns text

/-- Model of `parse_name_from_text` (src/parse.py, lines 101-111). -/
def parse_name_from_text (lines : List String) : Option String :=
  findKnownName KNOWN_PASSENGERS (pyLower (String.intercalate (" ") lines))

/-- The three textual representations the function tests for a candidate
name, and the predicate "some representation occurs in the text". -/
def nameVariants (name : String) : List String :=
  [pyLower name, reversedVariant (pyLower name), slashVariant (pyLower name)]

/-- Tail of the VAT-marker pattern after the `%` sign: `[\s]*(?:VAT|MwSt)`
(case-insensitive; `\s` is disjoint from `v`/`m`, so skipping the whole run
is the unique possibility). -/
def vatTail (r : List Char) : Bool :=
  let r2 := r.dropWhile isPyWS
  (matchCI (("vat").toList) r2).isSome || (matchCI (("mwst").toList) r2).isSome

/-- Attempt of `19\s?%[\s]*(?:VAT|MwSt)` at one position.  The greedy `\s?`
is deterministic: when the character after `19` is whitespace it cannot be
`%`, so exactly one of the two alternatives can proceed. -/
def vatAt : List Char → Bool
  | '1' :: '9' :: '%' :: r2 => vatTail r2
  | '1' :: '9' :: c :: '%' :: r2 => isPyWS c && vatTail r2
  | _ => false

/-- Model of `vat_pattern.search(line)`. -/
def vatSearchAux : List Char → Bool
  | [] => false
  | c :: cs => vatAt (c :: cs) || vatSearchAux cs

/-- Search for the 19% VAT / MwSt marker in a line. -/
def vatSearch (l : String) : Bool := vatSearchAux l.toList

/-- Attempt of `(\d{1,3}(?:[.,]\d{2}))\s*€` at one position: the full leading
digit run must have length 1-3 (a shorter greedy take always faces another
digit, never a separator), then separator, exactly two digits, optional
whitespace, and the euro sign.  Returns the capture (group 1, without the
`\s*€` tail) and the rest of the input after the whole match. -/
def euroAt (cs : List Char) : Option (String × List Char) :=
  let ds := cs.takeWhile Char.isDigit
  if 1 ≤ ds.length ∧ ds.length ≤ 3 then
    match cs.dropWhile Char.isDigit with
    | sep :: d1 :: d2 :: r2 =>
      if (sep = '.' ∨ sep = ',') ∧ d1.isDigit ∧ d2.isDigit then
        match r2.dropWhile isPyWS with
        | e :: r4 => if e = '€' then some (String.mk (ds ++ [sep, d1, d2]), r4) else none
        | _ => none
      else none
    | _ => none
  else none

/-- Model of `euro_pattern.findall(line)`: scan left to right, at each failed
position advance one character, after a match continue after its end
(non-overlapping matches).  Every step consumes at least one character, so a
fuel equal to the length of the input makes the recursion total without
changing the computed list. -/
def euroFindAllAux : Nat → List Char → List String
  | 0, _ => []
  | _, [] => []
  | fuel + 1, c :: cs =>
    match euroAt (c :: cs) with
    | some (g, rest) => g :: euroFindAllAux fuel rest
    | none => euroFindAllAux fuel cs

/-- All euro-amount captures on a line, in order. -/
def euroFindAll (l : String) : List String :=
  euroFindAllAux l.toList.length l.toList

/-- Model of Python's `float()` restricted to the decimal shapes this program
ever passes to it (a nonempty digit run, a dot, and exactly two fractional
digits); the result is in cents, and any other input is a `ValueError`
(`none`). -/
def parseAmount? (s : String) : Option Nat :=
  let ip := s.toList.takeWhile Char.isDigit
  match s.toList.dropWhile Char.isDigit with
  | e :: f1 :: f2 :: [] =>
    if e = '.' ∧ ¬ ip.isEmpty ∧ f1.isDigit ∧ f2.isDigit then
      some (natOfDigits ip * 100 + natOfDigits [f1, f2])
    else none
  | _ => none

/-- Model of `s.replace(",", ".")` (the replaced piece is a single
character). -/
def replaceCommaDot (s : String) : String :=
  String.mk (s.toList.map (fun c => if c = ',' then '.' else c))

/-- Model of `parse_net_cost_from_text` (src/parse.py, lines 114-135): find a
line with the 19% VAT/MwSt marker and at least two euro amounts, return the
second amount (comma normalized to a dot, converted with `float()`, here in
cents); a conversion failure falls through to the remaining lines. -/
def parse_net_cost_from_text : List String → Option Nat
  | [] => none
  | l :: ls =>
    if vatSearch l then
      match euroFindAll l with
      | _ :: s :: _ =>
        (match parseAmount? (replaceCommaDot s) with
         | some v => some v
         | none => parse_net_cost_from_text ls)
      | _ => parse_net_cost_from_text ls
    else parse_net_cost_from_text ls

/-- Modelled from the claim's wording for C4: an amount only counts if the
euro sign follows the two fractional digits immediately (no whitespace
before `€`). -/
def euroAtStrict (cs : List Char) : Option (String × List Char) :=
  let ds := cs.takeWhile Char.isDigit
  if 1 ≤ ds.length ∧ ds.length ≤ 3 then
    match cs.dropWhile Char.isDigit with
    | sep :: d1 :: d2 :: '€' :: r4 =>
      if (sep = '.' ∨ sep = ',') ∧ d1.isDigit ∧ d2.isDigit then
        some (String.mk (ds ++ [sep, d1, d2]), r4)
      else none
    | _ => none
  else none

/-- Modelled from the claim's wording for C4: all strictly euro-adjacent
amounts on a line. -/
def euroFindAllStrictAux : Nat → List Char → List String
  | 0, _ => []
  | _, [] => []
  | fuel + 1, c :: cs =>
    match euroAtStrict (c :: cs) with
    | some (g, rest) => g :: euroFindAllStrictAux fuel rest
    | none => euroFindAllStrictAux fuel cs

/-- Modelled from the claim's wording for C4. -/
def euroFindAllStrict (l : String) : List String :=
  euroFindAllStrictAux l.toList.length l.toList

/-- Modelled from the claim's wording for C4: the net cost predicted by the
claim, which admits only amounts immediately followed by a euro sign. -/
def claimed_net_cost_strict (lines : List String) : Option Nat :=
  (lines.find? (fun l => vatSearch l && decide (2 ≤ (euroFindAllStrict l).length))).bind
    fun l => ((euroFindAllStrict l)[1]?).bind fun s => parseAmount? (replaceCommaDot s)

/-- Digit-wise check plus `strptime` for one `DD.MM.YY` capture of
`parse_free2move_dates`; the two-digit year is expanded with the literal
century prefix `"20"`, i.e. to `2000 + yy`. -/
def f2mDigits6 (d1 d2 m1 m2 y1 y2 : Char) : Option Date :=
  if d1.isDigit ∧ d2.isDigit ∧ m1.isDigit ∧ m2.isDigit ∧ y1.isDigit ∧ y2.isDigit then
    strptimeDMY? (natOfDigits [d1, d2]) (natOfDigits [m1, m2]) (2000 + natOfDigits [y1, y2])
  else none

/-- Model of `date_pattern.match(line)` for `^(\d{2})\.(\d{2})\.(\d{2})$`:
`re.match` anchors at the start and `$` matches at the end of the string or
just before a single trailing newline. -/
def f2mLineDate? (line : String) : Option Date :=
  match line.toList with
  | [d1, d2, '.', m1, m2, '.', y1, y2] => f2mDigits6 d1 d2 m1 m2 y1 y2
  | [d1, d2, '.', m1, m2, '.', y1, y2, '\n'] => f2mDigits6 d1 d2 m1 m2 y1 y2
  | _ => none

/-- The `dates` list accumulated by `parse_free2move_dates` (invalid calendar
dates are skipped by the `except ValueError: continue`). -/
def f2mDatesOf (lines : List String) : List Date :=
  lines.filterMap f2mLineDate?

/-- Model of `parse_free2move_dates` (src/parse.py, lines 155-193): two or
more collected dates give the two earliest after an ascending sort, a single
date is used for both pickup and return, and no date gives `(none, none)`. -/
def parse_free2move_dates (lines : List String) : Option Date × Option Date :=
  let dates := f2mDatesOf lines
  if 2 ≤ dates.length then
    match List.insertionSort dateLe dates with
    | a :: b :: _ => (some a, some b)
    | _ => (none, none)
  else
    match dates with
    | [d] => (some d, some d)
    | _ => (none, none)

/-- Attempt of `^(\d{1,4}),(\d{2})` via `re.match` on one window line of
`parse_free2move_net_cost`, followed by `float(f"{g1}.{g2}")`: the leading
digit run must have length 1-4 (greedy backtracking cannot help, as in
`euroAt`), then a comma and two digits; anything may follow.  A `float`
failure behaves like a non-match (both continue the window scan). -/
def f2mAmountAt (l : String) : Option Nat :=
  let ds := l.toList.takeWhile Char.isDigit
  if 1 ≤ ds.length ∧ ds.length ≤ 4 then
    match l.toList.dropWhile Char.isDigit with
    | ',' :: d1 :: d2 :: _ =>
      if d1.isDigit ∧ d2.isDigit then parseAmount? (String.mk (ds ++ ['.', d1, d2]))
      else none
    | _ => none
  else none

/-- Model of `parse_free2move_net_cost` (src/parse.py, lines 196-230).  For a
line equal to `"Netto"` at index `i` the Python code scans
`lines[i+1 .. i+10]`, which is `take 10` of the tail; when that window yields
nothing the outer loop simply continues with the next index, i.e. the
recursion proceeds on the tail. -/
def parse_free2move_net_cost : List String → Option Nat
  | [] => none
  | l :: ls =>
    if l = "Netto" then
      match (ls.take 10).findSome? f2mAmountAt with
      | some v => some v
      | none => parse_free2move_net_cost ls
    else parse_free2move_net_cost ls

/-- Modelled from the claim's wording for C5: locate the first line equal to
`"Netto"`, scan only the 10 lines following it, and return the first matching
amount; absent if none of those lines match. -/
def claimed_f2m_net_cost (lines : List String) : Option Nat :=
  (lines.findIdx? (fun l => l = "Netto")).bind fun i =>
    ((lines.drop (i + 1)).take 10).findSome? f2mAmountAt

/-- Modelled from the amended wording for C5: the 10-line windows of all
`"Netto"` lines are scanned in order and the first window match anywhere
wins. -/
def claimed_f2m_net_cost_amended (lines : List String) : Option Nat :=
  ((List.range lines.length).filter (fun i => lines.getD i ("") = "Netto")).findSome?
    fun i => ((lines.drop (i + 1)).take 10).findSome? f2mAmountAt

/-- Characters replaced by a space in `sanitize_filename_component`. -/
def badChar (c : Char) : Bool :=
  c = '\\' || c = '/' || c = ':' || c = '*' || c = '?' || c = '"' || c = '<' || c = '>' || c = '|'

/-- Model of `re.sub(r"\s+", " ", s)`: every maximal whitespace run becomes a
single space (the space is emitted at the last character of the run). -/
def collapseWS : List Char → List Char
  | [] => []
  | [c] => if isPyWS c then [' '] else [c]
  | c :: d :: cs =>
    if isPyWS c then
      (if isPyWS d then collapseWS (d :: cs) else ' ' :: collapseWS (d :: cs))
    else c :: collapseWS (d :: cs)

/-- Model of Python's `str.strip()`. -/
def pyStrip (l : List Char) : List Char :=
  ((l.dropWhile isPyWS).reverse.dropWhile isPyWS).reverse

/-- Model of `sanitize_filename_component` (src/parse.py, lines 57-60). -/
def sanitize_filename_component (s : String) : String :=
  String.mk (pyStrip (collapseWS (s.toList.map (fun c => if badChar c then ' ' else c))))

/-- Zero-padded two-digit rendering, as `strftime` does for `%d` and `%m` and
an `"{:.2f}"` format does for the cents. -/
def pad2 (n : Nat) : String :=
  if n < 10 then ("0") ++ toString n else toString n

/-- Model of `format_date` (src/parse.py, lines 138-144): label `"hinflug"`
selects `"%d.%m."`, every other label `"%d.%m.%Y"`. -/
def format_date (d : Date) (label : String) : String :=
  if label = "hinflug" then pad2 d.day ++ (".") ++ pad2 d.month ++ (".")
  else pad2 d.day ++ (".") ++ pad2 d.month ++ (".") ++ toString d.year

/-- Rendering of `f"{net_cost:.2f}"` for an amount given in cents (exact on
every amount this program produces). -/
def formatCents (c : Nat) : String :=
  toString (c / 100) ++ (".") ++ pad2 (c % 100)

/-- Model of `build_filename` (src/parse.py, lines 233-245).  Python's
`if not passenger or not dep` is truthiness: it rejects an absent passenger,
an empty passenger string, and an absent departure date (`datetime` values
are always truthy); `if net_cost:` likewise skips both an absent and a zero
net cost. -/
def build_filename (passenger : Option String) (dep ret : Option Date)
    (net_cost : Option Nat) : Option String :=
  match passenger, dep with
  | some p, some d =>
    if p = "" then none
    else
      let base := ("Flug, ") ++ sanitize_filename_component p ++ (", ")
        ++ format_date d ("hinflug")
      let base := match ret with
        | some r => base ++ ("-") ++ format_date r ("rueckflug")
        | none => base
      let base := match net_cost with
        | some c => if c ≠ 0 then base ++ (", netcost ") ++ formatCents c else base
        | none => base
      some (base ++ (".pdf"))
  | _, _ => none

/-- Model of `build_free2move_filename` (src/parse.py, lines 248-271): a
present return date different from the departure date selects the range
format, otherwise the single full-year format; the net-cost suffix is
appended under the same truthiness test as in `build_filename`. -/
def build_free2move_filename (dep ret : Option Date) (net_cost : Option Nat) :
    Option String :=
  match dep with
  | none => none
  | some d =>
    let base := match ret with
      | some r =>
        if r ≠ d then
          ("Free2move, ") ++ format_date d ("hinflug") ++ ("-") ++ format_date r ("rueckflug")
        else ("Free2move, ") ++ format_date d ("rueckflug")
      | none => ("Free2move, ") ++ format_date d ("rueckflug")
    let base := match net_cost with
      | some c => if c ≠ 0 then base ++ (", netcost ") ++ formatCents c else base
      | none => base
    some (base ++ (".pdf"))

/-- Model of `pathlib.PurePath.stem` / `.suffix` on a file name: the split
position is just before the last dot when that dot is neither the first nor
the last character, and otherwise the suffix is empty. -/
def pySplitExt (name : String) : String × String :=
  let cs := name.toList
  let i := match cs.reverse.findIdx? (fun c => c = '.') with
    | none => cs.length
    | some j => if 0 < cs.length - 1 - j ∧ cs.length - 1 - j + 1 < cs.length then
        cs.length - 1 - j
      else cs.length
  (String.mk (cs.take i), String.mk (cs.drop i))

/-- One step of the collision loop in `process_file` (src/parse.py, lines
308-314): `f"{stem} ({counter}){suffix}"` of the current candidate. -/
def collisionStep (cand : String) (counter : Nat) : String :=
  (pySplitExt cand).1 ++ (" (") ++ toString counter ++ (")") ++ (pySplitExt cand).2

/-- Largest length of a file name in the directory listing. -/
def maxLenOf (l : List String) : Nat :=
  l.foldr (fun s m => max s.length m) 0

/-- Model of the `while final_path.exists()` loop of `process_file`: the
directory content is the list `existing` of names; each iteration appends
` (counter)` before the extension of the current candidate, so candidates
grow strictly in length and the loop terminates. -/
def resolveCollision (existing : List String) (cand : String) (counter : Nat) : String :=
  if h : cand ∈ existing then
    resolveCollision existing (collisionStep cand counter) (counter + 1)
  else cand
termination_by maxLenOf existing + 1 - cand.length
decreasing_by
  have hsplit : (pySplitExt cand).1.length + (pySplitExt cand).2.length = cand.length := by
    unfold pySplitExt
    show (cand.toList.take _).length + (cand.toList.drop _).length = cand.length
    rw [List.length_take, List.length_drop]
    have hl : cand.toList.length = cand.length := rfl
    omega
  have hgrow : cand.length < (collisionStep cand counter).length := by
    unfold collisionStep
    simp only [String.length_append]
    have h2 : (" (").length = 2 := rfl
    have h3 : (")").length = 1 := rfl
    omega
  have hmem : ∀ l : List String, cand ∈ l → cand.length ≤ maxLenOf l := by
    intro l hl
    induction l with
    | nil => cases hl
    | cons a t ih =>
      rcases List.mem_cons.mp hl with h' | h'
      · subst h'; exact Nat.le_max_left _ _
      · exact Nat.le_trans (ih h') (Nat.le_max_right _ _)
  have := hmem existing h
  omega

/-- Test `any(ch in p for ch in "*?[]")` of the batch driver. -/
def hasGlobChar (p : String) : Bool :=
  p.toList.any (fun c => c = '*' || c = '?' || c = '[' || c = ']')

/-- Final component of a path (model of `pathlib.Path(...).name` for the
paths the driver handles): the last nonempty slash-separated component. -/
def pathName (p : String) : String :=
  String.mk ((splitRunsAux (fun c => c = '/') [] p.toList).getLastD [])

/-- Model of `Path(p).suffix` on a full path. -/
def pathSuffixOf (p : String) : String :=
  (pySplitExt (pathName p)).2

/-- File selection of `main` (src/parse.py, lines 327-333): each argument is
glob-expanded when it contains a wildcard character, else taken literally;
only existing regular files (abstracted by `isFile`) with a case-insensitive
`.pdf` suffix are kept, in order. -/
def selectFiles (expandGlob : String → List String) (isFile : String → Bool)
    (paths : List String) : List String :=
  paths.flatMap fun p =>
    (if hasGlobChar p then expandGlob p else [p]).filter fun m =>
      isFile m && (pyLower (pathSuffixOf m) == (".pdf"))

/-- Message printed when no file was selected. -/
def noMatchMsg : String := "Keine passenden PDF-Dateien gefunden."

/-- Model of `main` (src/parse.py, lines 321-345): the result is the exit
code together with the lines printed, with `process_file` abstracted as the
parameter `processFile` (its internals are modelled separately), glob
expansion as `expandGlob` and `Path.is_file` as `isFile`.  The success flag
is folded exactly as `ok_all = ok_all and ok`. -/
def runMain (expandGlob : String → List String) (isFile : String → Bool)
    (processFile : String → Bool × String) (paths : List String) : Nat × List String :=
  let files := selectFiles expandGlob isFile paths
  if files.isEmpty then (2, [noMatchMsg])
  else
    let r := files.foldl
      (fun acc f => ((acc.1 && (processFile f).1), acc.2 ++ [(processFile f).2]))
      (true, ([] : List String))
    ((if r.1 then 0 else 1), r.2)

/-- Concrete airline invoice lines used as evaluation input. -/
def exLines1 : List String :=
  ["Flug: 06.10.2025 | Flugnummer: EW 9083 (BASIC H)",
   "Flight: 13.10.2025 | Flight Number EW 9083 (BIZClass AS)"]

/-- Concrete car-rental invoice lines used as evaluation input. -/
def exLines3 : List String := ["22.09.25", "08:59", "24.09.25", "14:36"]

/-- Concrete VAT line whose euro signs are separated from the amounts by a
space, as on real invoices. -/
def exLines4 : List String := ["19% VAT 1,23 € 4,56 €"]

/-- Concrete car-rental lines with two `Netto` markers: the first is followed
by ten non-amount lines, the second by an amount. -/
def exLines5 : List String :=
  ["Netto", "a", "b", "c", "d", "e", "f", "g", "h", "i", "j", "Netto", "5,00"]

theorem pySplitExt_length (name : String) :
    (pySplitExt name).1.length + (pySplitExt name).2.length = name.length := by
  unfold pySplitExt
  show (name.toList.take _).length + (name.toList.drop _).length = name.length
  rw [List.length_take, List.length_drop]
  have hl : name.toList.length = name.length := rfl
  omega

theorem collisionStep_length_gt (cand : String) (k : Nat) :
    cand.length < (collisionStep cand k).length := by
  unfold collisionStep
  simp only [String.length_append]
  have h2 : (" (").length = 2 := rfl
  have h3 : (")").length = 1 := rfl
  have := pySplitExt_length cand
  omega

theorem length_le_maxLenOf {cand : String} {l : List String} (h : cand ∈ l) :
    cand.length ≤ maxLenOf l := by
  induction l with
  | nil => cases h
  | cons a t ih =>
    rcases List.mem_cons.mp h with h' | h'
    · subst h'; exact Nat.le_max_left _ _
    · exact Nat.le_trans (ih h') (Nat.le_max_right _ _)

/-- C6: the collision loop of the renamer never picks a name that is already
present in the directory: whatever the target file name, the starting counter
and the set of existing names, the resulting final name is distinct from
every existing name (so the rename never overwrites a file). -/
theorem resolve_collision_never_overwrites (existing : List String) (cand : String)
    (counter : Nat) : resolveCollision existing cand counter ∉ existing := by
  have H : ∀ N cand counter, maxLenOf existing + 1 - cand.length ≤ N →
      resolveCollision existing cand counter ∉ existing := by
    intro N
    induction N with
    | zero =>
      intro cand counter hN
      rw [resolveCollision]
      split
      · next hmem =>
        exact absurd (length_le_maxLenOf hmem) (by omega)
      · next hmem => exact hmem
    | succ n ih =>
      intro cand counter hN
      rw [resolveCollision]
      split
      · next hmem =>
        apply ih
        have h1 := collisionStep_length_gt cand counter
        have h2 := length_le_maxLenOf hmem
        omega
      · next hmem => exact hmem
  exact H (maxLenOf existing + 1 - cand.length) cand counter (Nat.le_refl _)

theorem foldl_batch (process : String → Bool × String) :
    ∀ (files : List String) (b : Bool) (ms : List String),
      files.foldl (fun acc f => ((acc.1 && (process f).1), acc.2 ++ [(process f).2])) (b, ms)
        = (b && files.all (fun f => (process f).1),
           ms ++ files.map (fun f => (process f).2)) := by
  intro files
  induction files with
  | nil => intro b ms; simp
  | cons f fs ih =>
    intro b ms
    simp only [List.foldl_cons, ih, List.all_cons, List.map_cons]
    rw [Bool.and_assoc]
    simp

/-- C7: the batch driver exits with code 2, printing only the
no-matching-files message, exactly when file selection comes up empty;
otherwise it processes every selected file (one message per file, in order,
regardless of earlier failures) and the exit code is 0 when the conjunction
of all per-file outcomes holds and 1 otherwise. -/
theorem main_exit_codes (expandGlob : String → List String) (isFile : String → Bool)
    (processFile : String → Bool × String) (paths : List String) :
    (selectFiles expandGlob isFile paths = [] →
      runMain expandGlob isFile processFile paths = (2, [noMatchMsg])) ∧
    (selectFiles expandGlob isFile paths ≠ [] →
      runMain expandGlob isFile processFile paths =
        ((if (selectFiles expandGlob isFile paths).all (fun f => (processFile f).1)
            then 0 else 1),
         (selectFiles expandGlob isFile paths).map (fun f => (processFile f).2))) := by
  constructor
  · intro h
    unfold runMain
    rw [h]
    rfl
  · intro h
    have hne : (selectFiles expandGlob isFile paths).isEmpty = false := by
      cases hsel : selectFiles expandGlob isFile paths with
      | nil => exact absurd hsel h
      | cons a t => rfl
    simp only [runMain, hne, Bool.false_eq_true, if_false, foldl_batch]
    simp

/-- Witness for C7: a run whose arguments select no file exits with code 2
and prints only the fixed message; a glob run selecting two files (one
processed successfully, one not, with a case-insensitive `.PDF` suffix)
prints both per-file messages and exits with code 1. -/
theorem main_exit_codes_witness :
    runMain (fun _ => []) (fun _ => true) (fun s => (true, s)) ["a.txt"]
        = (2, [noMatchMsg]) ∧
    runMain (fun _ => ["x.pdf", "y.PDF"]) (fun _ => true)
        (fun s => ((s == ("x.pdf")), s)) ["*"]
        = (1, ["x.pdf", "y.PDF"]) := by
  constructor
  · exact (main_exit_codes (fun _ => []) (fun _ => true)
      (fun s => (true, s)) ["a.txt"]).1 rfl
  · have h := (main_exit_codes (fun _ => ["x.pdf", "y.PDF"]) (fun _ => true)
      (fun s => ((s == ("x.pdf")), s)) ["*"]).2 (by decide)
    rw [h]
    decide

/-- C10: a present net cost of exactly zero is treated by both filename
builders exactly like an absent net cost (Python's numeric truthiness), so
the netcost suffix is omitted. -/
theorem netcost_zero_as_absent (p : Option String) (d r : Option Date) :
    build_filename p d r (some 0) = build_filename p d r none ∧
    build_free2move_filename d r (some 0) = build_free2move_filename d r none := by
  constructor
  · cases p with
    | none => rfl
    | some pv =>
      cases d with
      | none => rfl
      | some dv =>
        by_cases hp : pv = ""
        · simp [build_filename, hp]
        · simp [build_filename, hp]
  · cases d with
    | none => rfl
    | some dv => simp [build_free2move_filename]

/-- Counterexample to C8 as stated: the passenger `some ""` and the departure
date are both present, yet the airline builder returns an absent filename,
because Python's `if not passenger` treats the empty string like `None`. -/
theorem build_filename_empty_passenger_cex :
    build_filename (some "") (some ⟨2025, 10, 6⟩) none none = none := rfl

/-- C8 (amended): the airline builder returns an absent filename exactly when
the passenger is absent or the empty string or the departure date is absent;
the car-rental builder exactly when the departure date is absent; and
whenever either builder returns a filename it is a full string ending in
`.pdf`, never a partial one. -/
theorem build_filename_none_iff (p : Option String) (d r : Option Date) (n : Option Nat) :
    (build_filename p d r n = none ↔ p = none ∨ p = some "" ∨ d = none) ∧
    (build_free2move_filename d r n = none ↔ d = none) ∧
    (∀ f, build_filename p d r n = some f → ∃ b, f = b ++ (".pdf")) ∧
    (∀ f, build_free2move_filename d r n = some f → ∃ b, f = b ++ (".pdf")) := by
  refine ⟨?_, ?_, ?_, ?_⟩
  · cases p with
    | none => simp [build_filename]
    | some pv =>
      cases d with
      | none => simp [build_filename]
      | some dv =>
        by_cases hp : pv = ""
        · simp [build_filename, hp]
        · simp [build_filename, hp]
  · cases d with
    | none => simp [build_free2move_filename]
    | some dv => simp [build_free2move_filename]
  · intro f hf
    cases p with
    | none => exact absurd hf (by simp [build_filename])
    | some pv =>
      cases d with
      | none => exact absurd hf (by simp [build_filename])
      | some dv =>
        by_cases hp : pv = ""
        · exact absurd hf (by simp [build_filename, hp])
        · simp only [build_filename, if_neg hp] at hf
          exact ⟨_, (Option.some.inj hf).symm⟩
  · intro f hf
    cases d with
    | none => exact absurd hf (by simp [build_free2move_filename])
    | some dv =>
      simp only [build_free2move_filename] at hf
      exact ⟨_, (Option.some.inj hf).symm⟩

/-- Witness for C8 (amended): with a known passenger and a departure date the
airline builder produces a filename, and a concrete produced filename ends in
`.pdf`. -/
theorem build_filename_none_iff_witness :
    build_filename (some "Thomas Stoeckel") (some ⟨2025, 10, 6⟩) none none ≠ none ∧
    (∃ b, ("Flug, Thomas Stoeckel, 06.10..pdf") = b ++ (".pdf")) := by
  constructor
  · intro h
    have := (build_filename_none_iff (some "Thomas Stoeckel")
      (some ⟨2025, 10, 6⟩) none none).1.mp h
    simp at this
  · exact (build_filename_none_iff (some "Thomas Stoeckel")
      (some ⟨2025, 10, 6⟩) none none).2.2.1 _ (by decide)

/-- C2 (divergence evaluation): the code's slash variant keeps the allow-list
order `first/last` (for `Andre Ziemke` it is `andre/ziemke`), contradicting
the claimed and documented `LAST/FIRST` ticket format: the line
`Ziemke/Andre` resolves to no passenger, while `Andre/Ziemke` resolves. -/
theorem parse_name_slash_variant_mismatch :
    parse_name_from_text ["Ziemke/Andre"] = none ∧
    parse_name_from_text ["Andre/Ziemke"] = some ("Andre Ziemke") ∧
    slashVariant (pyLower ("Andre Ziemke")) = ("andre/ziemke") := by
  refine ⟨by decide, by decide, by decide⟩

theorem dropWhile_idem (q : Char → Bool) (l : List Char) :
    (l.dropWhile q).dropWhile q = l.dropWhile q := by
  induction l with
  | nil => rfl
  | cons c cs ih =>
    by_cases h : q c
    · simp [List.dropWhile_cons, h, ih]
    · simp [List.dropWhile_cons, h]

theorem dropTrailing_cons (q : Char → Bool) (c : Char) (cs : List Char) :
    ((c :: cs).reverse.dropWhile q).reverse =
      if ((cs.reverse.dropWhile q).reverse).isEmpty then (if q c then [] else [c])
      else c :: (cs.reverse.dropWhile q).reverse := by
  rw [List.reverse_cons, List.dropWhile_append]
  by_cases hE : (cs.reverse.dropWhile q).isEmpty
  · have hE' : ((cs.reverse.dropWhile q).reverse).isEmpty = true := by
      rw [List.isEmpty_iff] at hE ⊢
      simp [hE]
    rw [if_pos hE, if_pos hE']
    by_cases hq : q c <;> simp [List.dropWhile_cons, hq]
  · have hE' : ¬ ((cs.reverse.dropWhile q).reverse).isEmpty = true := by
      rw [List.isEmpty_iff] at hE ⊢
      simpa using hE
    rw [if_neg (by simpa using hE), if_neg hE']
    simp

theorem dropWhile_dropTrailing_comm (q : Char → Bool) (l : List Char) :
    ((l.reverse.dropWhile q).reverse).dropWhile q =
      (((l.dropWhile q).reverse.dropWhile q).reverse) := by
  induction l with
  | nil => rfl
  | cons c cs ih =>
    rw [dropTrailing_cons]
    by_cases hq : q c
    · by_cases hE : ((cs.reverse.dropWhile q).reverse).isEmpty
      · rw [if_pos hE, if_pos hq]
        have hall : ∀ a ∈ cs, q a := by
          rw [List.isEmpty_iff] at hE
          have : cs.reverse.dropWhile q = [] := by
            have := congrArg List.reverse hE
            simpa using this
          intro a ha
          exact List.dropWhile_eq_nil_iff.mp this a (List.mem_reverse.mpr ha)
        have hd : cs.dropWhile q = [] := List.dropWhile_eq_nil_iff.mpr hall
        rw [List.dropWhile_cons, if_pos hq, hd]
        rfl
      · rw [if_neg hE]
        rw [List.dropWhile_cons, if_pos hq, List.dropWhile_cons, if_pos hq]
        exact ih
    · by_cases hE : ((cs.reverse.dropWhile q).reverse).isEmpty
      · rw [if_pos hE, if_neg hq]
        rw [List.dropWhile_cons, if_neg hq, List.dropWhile_cons, if_neg hq]
        rw [dropTrailing_cons, if_pos hE, if_neg hq]
      · rw [if_neg hE, List.dropWhile_cons, if_neg hq, List.dropWhile_cons, if_neg hq]
        rw [dropTrailing_cons, if_neg hE]

theorem pyStrip_idem (l : List Char) : pyStrip (pyStrip l) = pyStrip l := by
  have step1 : (pyStrip l).dropWhile isPyWS = pyStrip l := by
    unfold pyStrip
    rw [dropWhile_dropTrailing_comm, dropWhile_idem]
  have step2 : ((pyStrip l).reverse.dropWhile isPyWS) = (pyStrip l).reverse := by
    unfold pyStrip
    rw [List.reverse_reverse, dropWhile_idem]
  show (((pyStrip l).dropWhile isPyWS).reverse.dropWhile isPyWS).reverse = pyStrip l
  rw [step1, step2, List.reverse_reverse]

theorem mem_pyStrip {c : Char} {l : List Char} (h : c ∈ pyStrip l) : c ∈ l := by
  unfold pyStrip at h
  rw [List.mem_reverse] at h
  have h2 := (List.dropWhile_suffix _).mem h
  rw [List.mem_reverse] at h2
  exact (List.dropWhile_suffix _).mem h2

theorem chain_pyStrip {r : Char → Char → Prop} {l : List Char}
    (h : l.Chain' r) : (pyStrip l).Chain' r := by
  unfold pyStrip
  have h1 : (l.dropWhile isPyWS).Chain' r := h.suffix (List.dropWhile_suffix _)
  have h2 : ((l.dropWhile isPyWS).reverse).Chain' (flip r) := by
    rw [List.chain'_reverse]
    exact h1.imp (fun a b hab => hab)
  have h3 : (((l.dropWhile isPyWS).reverse).dropWhile isPyWS).Chain' (flip r) :=
    h2.suffix (List.dropWhile_suffix _)
  rw [List.chain'_reverse]
  exact h3.imp (fun a b hab => hab)

theorem collapseWS_ws_space :
    ∀ (u : List Char), ∀ c ∈ collapseWS u, isPyWS c = true → c = ' ' := by
  intro u
  induction u with
  | nil => intro c hc; cases hc
  | cons a cs ih =>
    cases cs with
    | nil =>
      intro c hc hws
      by_cases ha : isPyWS a
      · simp only [collapseWS, if_pos ha, List.mem_singleton] at hc
        exact hc
      · simp only [collapseWS, if_neg ha, List.mem_singleton] at hc
        subst hc; exact absurd hws (by simp [ha])
    | cons d cs' =>
      intro c hc hws
      by_cases ha : isPyWS a
      · by_cases hd : isPyWS d
        · simp only [collapseWS, if_pos ha, if_pos hd] at hc
          exact ih c hc hws
        · simp only [collapseWS, if_pos ha, if_neg hd, List.mem_cons] at hc
          rcases hc with h | h
          · exact h
          · exact ih c h hws
      · simp only [collapseWS, if_neg ha, List.mem_cons] at hc
        rcases hc with h | h
        · subst h; exact absurd hws (by simp [ha])
        · exact ih c h hws

theorem collapseWS_mem :
    ∀ (u : List Char), ∀ c ∈ collapseWS u, c ∈ u ∨ c = ' ' := by
  intro u
  induction u with
  | nil => intro c hc; cases hc
  | cons a cs ih =>
    cases cs with
    | nil =>
      intro c hc
      by_cases ha : isPyWS a
      · simp only [collapseWS, if_pos ha, List.mem_singleton] at hc
        exact Or.inr hc
      · simp only [collapseWS, if_neg ha, List.mem_singleton] at hc
        exact Or.inl (by simp [hc])
    | cons d cs' =>
      intro c hc
      by_cases ha : isPyWS a
      · by_cases hd : isPyWS d
        · simp only [collapseWS, if_pos ha, if_pos hd] at hc
          rcases ih c hc with h | h
          · exact Or.inl (List.mem_cons_of_mem _ h)
          · exact Or.inr h
        · simp only [collapseWS, if_pos ha, if_neg hd, List.mem_cons] at hc
          rcases hc with h | h
          · exact Or.inr h
          · rcases ih c h with h' | h'
            · exact Or.inl (List.mem_cons_of_mem _ h')
            · exact Or.inr h'
      · simp only [collapseWS, if_neg ha, List.mem_cons] at hc
        rcases hc with h | h
        · exact Or.inl (by simp [h])
        · rcases ih c h with h' | h'
          · exact Or.inl (List.mem_cons_of_mem _ h')
          · exact Or.inr h'

theorem collapseWS_head_nonws {d : Char} (hd : isPyWS d = false) (cs : List Char) :
    (collapseWS (d :: cs)).head? = some d := by
  cases cs with
  | nil => simp [collapseWS, hd]
  | cons e cs' => simp [collapseWS, hd]

theorem collapseWS_chain :
    ∀ (u : List Char),
      (collapseWS u).Chain' (fun a b => isPyWS a = false ∨ isPyWS b = false) := by
  intro u
  induction u with
  | nil => simp [collapseWS]
  | cons a cs ih =>
    cases cs with
    | nil =>
      by_cases ha : isPyWS a <;> simp [collapseWS, ha]
    | cons d cs' =>
      by_cases ha : isPyWS a
      · by_cases hd : isPyWS d
        · simpa [collapseWS, ha, hd] using ih
        · simp only [collapseWS, if_pos ha, if_neg hd]
          rw [List.chain'_cons']
          constructor
          · intro b hb
            rw [collapseWS_head_nonws (by simpa using hd) cs'] at hb
            cases hb
            exact Or.inr (by simpa using hd)
          · exact ih
      · simp only [collapseWS, if_neg ha]
        rw [List.chain'_cons']
        exact ⟨fun b _ => Or.inl (by simpa using ha), ih⟩

theorem collapseWS_id :
    ∀ (v : List Char), (∀ c ∈ v, isPyWS c = true → c = ' ') →
      v.Chain' (fun a b => isPyWS a = false ∨ isPyWS b = false) →
      collapseWS v = v := by
  intro v
  induction v with
  | nil => intro _ _; rfl
  | cons a cs ih =>
    cases cs with
    | nil =>
      intro hws _
      by_cases ha : isPyWS a
      · simp only [collapseWS, if_pos ha]
        rw [hws a (by simp) ha]
      · simp [collapseWS, ha]
    | cons d cs' =>
      intro hws hch
      rw [List.chain'_cons] at hch
      by_cases ha : isPyWS a
      · have hd : isPyWS d = false := by
          rcases hch.1 with h | h
          · exact absurd ha (by simp [h])
          · exact h
        simp only [collapseWS, if_pos ha, hd, Bool.false_eq_true, if_false]
        rw [hws a (by simp) ha]
        congr 1
        exact ih (fun c hc h => hws c (List.mem_cons_of_mem _ hc) h) hch.2
      · simp only [collapseWS, if_neg ha]
        congr 1
        exact ih (fun c hc h => hws c (List.mem_cons_of_mem _ hc) h) hch.2

/-- C9: the passenger-name sanitizer is idempotent: sanitizing an already
sanitized string changes nothing. -/
theorem sanitize_idempotent (s : String) :
    sanitize_filename_component (sanitize_filename_component s) =
      sanitize_filename_component s := by
  unfold sanitize_filename_component
  have htl : ∀ (l : List Char), (String.mk l).toList = l := fun _ => rfl
  rw [htl]
  have hnb : ∀ c ∈ pyStrip (collapseWS (s.toList.map (fun c => if badChar c then ' ' else c))),
      badChar c = false := by
    intro c hc
    rcases collapseWS_mem _ c (mem_pyStrip hc) with h | h
    · obtain ⟨a, _, rfl⟩ := List.mem_map.mp h
      by_cases hb : badChar a
      · rw [if_pos hb]; rfl
      · rw [if_neg hb]; simpa using hb
    · subst h; rfl
  have hmap : (pyStrip (collapseWS (s.toList.map (fun c => if badChar c then ' ' else c)))).map
      (fun c => if badChar c then ' ' else c) =
      pyStrip (collapseWS (s.toList.map (fun c => if badChar c then ' ' else c))) := by
    have h1 : ∀ c ∈ pyStrip (collapseWS (s.toList.map (fun c => if badChar c then ' ' else c))),
        (if badChar c then ' ' else c) = id c := by
      intro c hc
      rw [if_neg (by simp [hnb c hc])]
      rfl
    rw [List.map_congr_left h1, List.map_id]
  rw [hmap]
  have hws : ∀ c ∈ pyStrip (collapseWS (s.toList.map (fun c => if badChar c then ' ' else c))),
      isPyWS c = true → c = ' ' :=
    fun c hc => collapseWS_ws_space _ c (mem_pyStrip hc)
  have hch := chain_pyStrip (r := fun a b => isPyWS a = false ∨ isPyWS b = false)
    (collapseWS_chain (s.toList.map (fun c => if badChar c then ' ' else c)))
  rw [collapseWS_id _ hws hch]
  rw [pyStrip_idem]

theorem takeWhile_append_all {α : Type} (p : α → Bool) (l1 l2 : List α)
    (h : ∀ a ∈ l1, p a = true) (b : α) (hb : p b = false) :
    (l1 ++ b :: l2).takeWhile p = l1 ∧ (l1 ++ b :: l2).dropWhile p = b :: l2 := by
  induction l1 with
  | nil => simp [List.takeWhile_cons, List.dropWhile_cons, hb]
  | cons a t ih =>
    have ha : p a = true := h a (by simp)
    have ih' := ih (fun x hx => h x (by simp [hx]))
    simp [List.takeWhile_cons, List.dropWhile_cons, ha, ih'.1, ih'.2]

theorem euroAt_shape {cs : List Char} {g : String} {rest : List Char}
    (h : euroAt cs = some (g, rest)) :
    ∃ ds sep d1 d2, g = String.mk (ds ++ [sep, d1, d2]) ∧ ds ≠ [] ∧
      (∀ c ∈ ds, c.isDigit = true) ∧ (sep = '.' ∨ sep = ',') ∧
      d1.isDigit = true ∧ d2.isDigit = true := by
  unfold euroAt at h
  split at h
  · next sep d1 d2 r2 heq1 =>
    split at h
    · next h2 =>
      split at h
      · next e r4 heq2 =>
        split at h
        · next he =>
          dsimp only at h
          by_cases h1 : 1 ≤ (cs.takeWhile Char.isDigit).length ∧
              (cs.takeWhile Char.isDigit).length ≤ 3
          · rw [if_pos h1] at h
            have hg := (Prod.mk.injEq _ _ _ _).mp (Option.some.inj h)
            refine ⟨cs.takeWhile Char.isDigit, sep, d1, d2, hg.1.symm, ?_, ?_, h2.1,
              h2.2.1, h2.2.2⟩
            · intro hnil; rw [hnil] at h1; simp at h1
            · intro c hc; exact List.mem_takeWhile_imp hc
          · rw [if_neg h1] at h; cases h
        · next he => simp only [ite_self] at h; cases h
      · next x heq2 => simp only [ite_self] at h; cases h
    · next h2 => simp only [ite_self] at h; cases h
  · next x heq1 => simp only [ite_self] at h; cases h

theorem mem_euroFindAllAux {fuel : Nat} {cs : List Char} {g : String}
    (h : g ∈ euroFindAllAux fuel cs) :
    ∃ ds sep d1 d2, g = String.mk (ds ++ [sep, d1, d2]) ∧ ds ≠ [] ∧
      (∀ c ∈ ds, c.isDigit = true) ∧ (sep = '.' ∨ sep = ',') ∧
      d1.isDigit = true ∧ d2.isDigit = true := by
  induction fuel generalizing cs with
  | zero => simp only [euroFindAllAux] at h; cases h
  | succ n ih =>
    cases cs with
    | nil => simp only [euroFindAllAux] at h; cases h
    | cons c cs' =>
      cases he : euroAt (c :: cs') with
      | none =>
        simp only [euroFindAllAux, he] at h
        exact ih h
      | some gr =>
        cases gr with
        | mk g1 rest =>
          simp only [euroFindAllAux, he] at h
          rcases List.mem_cons.mp h with h' | h'
          · subst h'
            exact euroAt_shape he
          · exact ih h'

theorem natOfDigits_parses {ds : List Char} {d1 d2 : Char} (hne : ds ≠ [])
    (hall : ∀ c ∈ ds, c.isDigit = true) (h1 : d1.isDigit = true) (h2 : d2.isDigit = true) :
    parseAmount? (String.mk (ds ++ ['.', d1, d2])) =
      some (natOfDigits ds * 100 + natOfDigits [d1, d2]) := by
  have hdot : ('.').isDigit = false := by decide
  have hsplit := takeWhile_append_all Char.isDigit ds [d1, d2] hall '.' hdot
  unfold parseAmount?
  have htl : (String.mk (ds ++ ['.', d1, d2])).toList = ds ++ '.' :: [d1, d2] := rfl
  rw [htl, hsplit.1, hsplit.2]
  dsimp only
  rw [if_pos]
  refine ⟨rfl, ?_, h1, h2⟩
  simpa using hne

theorem euro_capture_parses {l s : String} (h : s ∈ euroFindAll l) :
    ∃ v, parseAmount? (replaceCommaDot s) = some v := by
  obtain ⟨ds, sep, d1, d2, hg, hne, hall, hsep, h1, h2⟩ := mem_euroFindAllAux h
  subst hg
  have hmap : (ds ++ [sep, d1, d2]).map (fun c => if c = ',' then '.' else c) =
      ds ++ ['.', d1, d2] := by
    rw [List.map_append]
    congr 1
    · have h1' : ∀ c ∈ ds, (if c = ',' then '.' else c) = id c := by
        intro c hc
        have : c ≠ ',' := by
          intro hcc
          subst hcc
          exact absurd (hall _ hc) (by decide)
        rw [if_neg this]
        rfl
      rw [List.map_congr_left h1', List.map_id]
    · have e1 : (if d1 = ',' then '.' else d1) = d1 := by
        rw [if_neg]
        intro hcc; subst hcc; exact absurd h1 (by decide)
      have e2 : (if d2 = ',' then '.' else d2) = d2 := by
        rw [if_neg]
        intro hcc; subst hcc; exact absurd h2 (by decide)
      have esep : (if sep = ',' then '.' else sep) = '.' := by
        rcases hsep with hs | hs <;> subst hs <;> simp
      simp [e1, e2, esep]
  have hrep : replaceCommaDot (String.mk (ds ++ [sep, d1, d2])) =
      String.mk (ds ++ ['.', d1, d2]) := by
    unfold replaceCommaDot
    exact congrArg String.mk hmap
  rw [hrep, natOfDigits_parses hne hall h1 h2]
  exact ⟨_, rfl⟩

/-- Counterexample to C4 as stated: on a line whose euro amounts are written
with a space before the euro sign (as on the real invoices), the code
extracts both amounts and returns the second one, while the claim's strict
"immediately followed by a euro sign" reading extracts no amount at all and
would yield an absent net cost. -/
theorem parse_net_cost_strict_adjacency_cex :
    parse_net_cost_from_text exLines4 = some 456 ∧
    claimed_net_cost_strict exLines4 = none := by
  exact ⟨by decide, by decide⟩

/-- C4 (amended): the airline net-cost extractor returns the value of the
second euro amount (`digits(.|,)digits` followed, possibly after whitespace,
by a euro sign; comma normalized to a dot) of the first line that carries the
19% VAT/MwSt marker and at least two such amounts, and is absent when no line
qualifies.  The conversion of the second amount always succeeds, so the
fall-through on conversion failure is unreachable. -/
theorem parse_net_cost_characterization (lines : List String) :
    parse_net_cost_from_text lines =
      (lines.find? (fun l => vatSearch l && decide (2 ≤ (euroFindAll l).length))).bind
        (fun l => ((euroFindAll l)[1]?).bind fun s => parseAmount? (replaceCommaDot s)) := by
  induction lines with
  | nil => rfl
  | cons l ls ih =>
    by_cases hv : vatSearch l
    · cases he : euroFindAll l with
      | nil =>
        have hp : (vatSearch l && decide (2 ≤ (euroFindAll l).length)) = false := by
          rw [he]; simp
        have hfind : List.find? (fun l => vatSearch l && decide (2 ≤ (euroFindAll l).length))
            (l :: ls) = List.find? (fun l => vatSearch l && decide (2 ≤ (euroFindAll l).length))
              ls := by
          rw [List.find?_cons]
          simp [hp]
        rw [hfind]
        simp only [parse_net_cost_from_text, if_pos hv, he]
        exact ih
      | cons a tl =>
        cases tl with
        | nil =>
          have hp : (vatSearch l && decide (2 ≤ (euroFindAll l).length)) = false := by
            rw [he]; simp
          have hfind : List.find? (fun l => vatSearch l && decide (2 ≤ (euroFindAll l).length))
              (l :: ls) = List.find?
                (fun l => vatSearch l && decide (2 ≤ (euroFindAll l).length)) ls := by
            rw [List.find?_cons]
            simp [hp]
          rw [hfind]
          simp only [parse_net_cost_from_text, if_pos hv, he]
          exact ih
        | cons s tl2 =>
          have hp : (vatSearch l && decide (2 ≤ (euroFindAll l).length)) = true := by
            rw [he]
            simp only [hv, Bool.true_and, decide_eq_true_eq, List.length_cons]
            omega
          have hfind : List.find? (fun l => vatSearch l && decide (2 ≤ (euroFindAll l).length))
              (l :: ls) = some l := by
            rw [List.find?_cons]
            simp [hp]
          rw [hfind]
          have hs : s ∈ euroFindAll l := by rw [he]; exact List.mem_cons_of_mem _ (by simp)
          obtain ⟨v, hpar⟩ := euro_capture_parses hs
          simp only [parse_net_cost_from_text, if_pos hv, Option.some_bind, he,
            List.getElem?_cons_succ, List.getElem?_cons_zero, hpar]
    · have hp : (vatSearch l && decide (2 ≤ (euroFindAll l).length)) = false := by
        simp [hv]
      have hfind : List.find? (fun l => vatSearch l && decide (2 ≤ (euroFindAll l).length))
          (l :: ls) = List.find? (fun l => vatSearch l && decide (2 ≤ (euroFindAll l).length))
            ls := by
        rw [List.find?_cons]
        simp [hp]
      rw [hfind]
      simp only [parse_net_cost_from_text, if_neg hv]
      exact ih

/-- Counterexample to C5 as stated: when the ten lines after the first
`Netto` line contain no amount, the code does not report an absent net cost;
it keeps scanning and finds the amount after a second `Netto` line. -/
theorem parse_f2m_net_cost_window_cex :
    parse_free2move_net_cost exLines5 = some 500 ∧
    claimed_f2m_net_cost exLines5 = none := by
  exact ⟨by decide, by decide⟩

/-- C5 (amended): the car-rental net-cost extractor scans the 10 lines after
each line equal to `Netto` (every such line in order, not only the first) and
returns the first window match; the net cost is absent only when no `Netto`
line has a match within its 10-line window. -/
theorem parse_f2m_net_cost_characterization (lines : List String) :
    parse_free2move_net_cost lines = claimed_f2m_net_cost_amended lines := by
  induction lines with
  | nil => rfl
  | cons l ls ih =>
    have hp : (fun i => decide ((l :: ls).getD (i + 1) ("") = ("Netto"))) =
        (fun i => decide (ls.getD i ("") = ("Netto"))) := by
      funext i
      rw [List.getD_cons_succ]
    by_cases hl : l = "Netto"
    · have hq0 : decide ((l :: ls).getD 0 ("") = ("Netto")) = true := by
        rw [List.getD_cons_zero]
        exact decide_eq_true hl
      have hstep : claimed_f2m_net_cost_amended (l :: ls) =
          (match (ls.take 10).findSome? f2mAmountAt with
           | some v => some v
           | none => claimed_f2m_net_cost_amended ls) := by
        unfold claimed_f2m_net_cost_amended
        rw [List.length_cons, List.range_succ_eq_map,
          List.filter_cons_of_pos (by exact hq0), List.findSome?_cons, List.filter_map,
          List.findSome?_map]
        simp only [List.drop_succ_cons, List.drop_zero, Function.comp_def,
          Nat.succ_eq_add_one, hp]
        cases hw2 : (ls.take 10).findSome? f2mAmountAt <;> rfl
      rw [hstep]
      cases hw : (ls.take 10).findSome? f2mAmountAt with
      | some v => simp only [parse_free2move_net_cost, if_pos hl, hw]
      | none =>
        simp only [parse_free2move_net_cost, if_pos hl, hw]
        exact ih
    · have hq0 : decide ((l :: ls).getD 0 ("") = ("Netto")) = false := by
        rw [List.getD_cons_zero]
        exact decide_eq_false hl
      have hstep : claimed_f2m_net_cost_amended (l :: ls) =
          claimed_f2m_net_cost_amended ls := by
        unfold claimed_f2m_net_cost_amended
        rw [List.length_cons, List.range_succ_eq_map,
          List.filter_cons_of_neg (by simp [hq0, hl]), List.filter_map, List.findSome?_map]
        simp only [List.drop_succ_cons, List.drop_zero, Function.comp_def,
          Nat.succ_eq_add_one, hp]
      rw [hstep]
      simp only [parse_free2move_net_cost, if_neg hl]
      exact ih

theorem length_filterMap_eq_countP {α β : Type} (f : α → Option β) (l : List α) :
    (l.filterMap f).length = l.countP (fun a => (f a).isSome) := by
  induction l with
  | nil => rfl
  | cons a t ih =>
    rw [List.filterMap_cons, List.countP_cons]
    cases hf : f a with
    | none => simp [hf, ih]
    | some b => simp [hf, ih]

/-- C1: every line on which the combined bilingual flight pattern matches
with a valid date contributes exactly one (date, flight-number) pair; the
departure date is the minimum of all collected dates, the return date is the
second-smallest date (with multiplicity) when at least two pairs exist and
absent otherwise, and both dates are absent when no line matches. -/
theorem parse_dates_min_second (lines : List String) :
    ((flightsOf lines).length = lines.countP (fun l => (flightLineParse l).isSome)) ∧
    ((flightsOf lines).map Prod.fst = [] → parse_dates_from_text lines = (none, none)) ∧
    ((flightsOf lines).map Prod.fst ≠ [] →
      ∃ d, (parse_dates_from_text lines).1 = some d ∧ d ∈ (flightsOf lines).map Prod.fst ∧
        ∀ e ∈ (flightsOf lines).map Prod.fst, dateLe d e) ∧
    (((flightsOf lines).map Prod.fst).length = 1 →
      (parse_dates_from_text lines).2 = none) ∧
    (2 ≤ ((flightsOf lines).map Prod.fst).length →
      ∃ d r tl, parse_dates_from_text lines = (some d, some r) ∧
        ((flightsOf lines).map Prod.fst).Perm (d :: r :: tl) ∧ dateLe d r ∧
        ∀ e ∈ tl, dateLe r e) := by
  have hsp := List.perm_insertionSort flightLe (flightsOf lines)
  have hss := List.sorted_insertionSort flightLe (flightsOf lines)
  refine ⟨length_filterMap_eq_countP _ _, ?_, ?_, ?_, ?_⟩
  · intro h
    have hfl : flightsOf lines = [] := List.map_eq_nil_iff.mp h
    simp [parse_dates_from_text, hfl]
  · intro h
    have hfl : flightsOf lines ≠ [] := fun hc => h (by rw [hc]; rfl)
    have hie : (flightsOf lines).isEmpty = false := by
      cases hx : flightsOf lines with
      | nil => exact absurd hx hfl
      | cons u v => rfl
    cases hs : List.insertionSort flightLe (flightsOf lines) with
    | nil =>
      exfalso
      rw [hs] at hsp
      exact hfl (List.length_eq_zero.mp (hsp.length_eq.symm.trans rfl))
    | cons a rest =>
      rw [hs] at hsp hss
      have hparse1 : (parse_dates_from_text lines).1 = some a.1 := by
        simp only [parse_dates_from_text, hie, Bool.false_eq_true, if_false, hs]
        cases rest <;> rfl
      refine ⟨a.1, hparse1, ?_, ?_⟩
      · exact List.mem_map_of_mem Prod.fst (hsp.subset (by simp))
      · intro e he
        obtain ⟨x, hx, rfl⟩ := List.mem_map.mp he
        have hx' : x ∈ a :: rest := hsp.mem_iff.mpr hx
        rcases List.mem_cons.mp hx' with h' | h'
        · rw [h']; exact dateLe_refl _
        · exact List.rel_of_sorted_cons hss x h'
  · intro h1
    rw [List.length_map] at h1
    have hfl : flightsOf lines ≠ [] := by
      intro hc; rw [hc] at h1; cases h1
    have hie : (flightsOf lines).isEmpty = false := by
      cases hx : flightsOf lines with
      | nil => exact absurd hx hfl
      | cons u v => rfl
    have hslen : (List.insertionSort flightLe (flightsOf lines)).length = 1 := by
      rw [hsp.length_eq]; exact h1
    cases hs : List.insertionSort flightLe (flightsOf lines) with
    | nil => rw [hs] at hslen; cases hslen
    | cons a rest =>
      cases rest with
      | nil =>
        simp only [parse_dates_from_text, hie, Bool.false_eq_true, if_false, hs]
      | cons b r2 =>
        rw [hs] at hslen
        simp at hslen
  · intro h2
    rw [List.length_map] at h2
    have hfl : flightsOf lines ≠ [] := by
      intro hc; rw [hc] at h2; cases h2
    have hie : (flightsOf lines).isEmpty = false := by
      cases hx : flightsOf lines with
      | nil => exact absurd hx hfl
      | cons u v => rfl
    have hslen : 2 ≤ (List.insertionSort flightLe (flightsOf lines)).length := by
      rw [hsp.length_eq]; exact h2
    cases hs : List.insertionSort flightLe (flightsOf lines) with
    | nil => rw [hs] at hslen; cases hslen
    | cons a rest =>
      cases rest with
      | nil => rw [hs] at hslen; simp at hslen
      | cons b tl =>
        rw [hs] at hsp hss
        refine ⟨a.1, b.1, tl.map Prod.fst, ?_, ?_, ?_, ?_⟩
        · simp only [parse_dates_from_text, hie, Bool.false_eq_true, if_false, hs]
        · have := (hsp.symm).map Prod.fst
          simpa using this
        · exact List.rel_of_sorted_cons hss b (by simp)
        · intro e he
          obtain ⟨x, hx, rfl⟩ := List.mem_map.mp he
          exact List.rel_of_sorted_cons (hss.of_cons) x hx

/-- Witness for C1: on two concrete labelled flight lines the parser returns
the two extracted dates in ascending order. -/
theorem parse_dates_min_second_witness :
    ∃ d r tl, parse_dates_from_text exLines1 = (some d, some r) ∧
      ((flightsOf exLines1).map Prod.fst).Perm (d :: r :: tl) ∧ dateLe d r ∧
      ∀ e ∈ tl, dateLe r e :=
  (parse_dates_min_second exLines1).2.2.2.2 (by decide)

theorem isDigit_toNat {c : Char} (h : c.isDigit = true) :
    48 ≤ c.toNat ∧ c.toNat ≤ 57 := by
  unfold Char.isDigit at h
  rw [Bool.and_eq_true, decide_eq_true_eq, decide_eq_true_eq] at h
  exact ⟨h.1, h.2⟩

theorem f2mDigits6_year {d1 d2 m1 m2 y1 y2 : Char} {dt : Date}
    (h : f2mDigits6 d1 d2 m1 m2 y1 y2 = some dt) :
    2000 ≤ dt.year ∧ dt.year ≤ 2099 := by
  unfold f2mDigits6 at h
  split at h
  · next hd =>
    unfold strptimeDMY? at h
    split at h
    · next hvalid =>
      have hdt := Option.some.inj h
      have hy1 := isDigit_toNat hd.2.2.2.2.1
      have hy2 := isDigit_toNat hd.2.2.2.2.2
      have hval : natOfDigits [y1, y2] = (0 * 10 + (y1.toNat - 48)) * 10 + (y2.toNat - 48) :=
        rfl
      rw [← hdt]
      show 2000 ≤ 2000 + natOfDigits [y1, y2] ∧ 2000 + natOfDigits [y1, y2] ≤ 2099
      omega
    · cases h
  · cases h

/-- C3: if no line matches the whole-line `DD.MM.YY` pattern both dates are
absent; a single matching line gives the same expanded date for pickup and
return; with two or more matching lines the result is the two smallest
collected dates in ascending order (duplicates may both be selected); and
every collected date carries the `20` century prefix. -/
theorem parse_free2move_dates_spec (lines : List String) :
    (f2mDatesOf lines = [] → parse_free2move_dates lines = (none, none)) ∧
    (∀ d, f2mDatesOf lines = [d] → parse_free2move_dates lines = (some d, some d)) ∧
    (2 ≤ (f2mDatesOf lines).length →
      ∃ a b tl, parse_free2move_dates lines = (some a, some b) ∧
        (f2mDatesOf lines).Perm (a :: b :: tl) ∧ dateLe a b ∧ ∀ e ∈ tl, dateLe b e) ∧
    (∀ d ∈ f2mDatesOf lines, 2000 ≤ d.year ∧ d.year ≤ 2099) := by
  have hsp := List.perm_insertionSort dateLe (f2mDatesOf lines)
  have hss := List.sorted_insertionSort dateLe (f2mDatesOf lines)
  refine ⟨?_, ?_, ?_, ?_⟩
  · intro h
    simp [parse_free2move_dates, h]
  · intro d h
    simp only [parse_free2move_dates, h]
    rfl
  · intro h2
    have hslen : 2 ≤ (List.insertionSort dateLe (f2mDatesOf lines)).length := by
      rw [hsp.length_eq]; exact h2
    cases hs : List.insertionSort dateLe (f2mDatesOf lines) with
    | nil => rw [hs] at hslen; cases hslen
    | cons a rest =>
      cases rest with
      | nil => rw [hs] at hslen; simp at hslen
      | cons b tl =>
        rw [hs] at hsp hss
        refine ⟨a, b, tl, ?_, hsp.symm, ?_, ?_⟩
        · simp only [parse_free2move_dates, if_pos h2, hs]
        · exact List.rel_of_sorted_cons hss b (by simp)
        · intro e he
          exact List.rel_of_sorted_cons (hss.of_cons) e he
  · intro d hd
    obtain ⟨l, _, hl⟩ := List.mem_filterMap.mp hd
    unfold f2mLineDate? at hl
    split at hl
    · exact f2mDigits6_year hl
    · exact f2mDigits6_year hl
    · cases hl

/-- Witness for C3: on concrete lines with two short dates the parser returns
the two dates ascending. -/
theorem parse_free2move_dates_spec_witness :
    ∃ a b tl, parse_free2move_dates exLines3 = (some a, some b) ∧
      (f2mDatesOf exLines3).Perm (a :: b :: tl) ∧ dateLe a b ∧ ∀ e ∈ tl, dateLe b e :=
  (parse_free2move_dates_spec exLines3).2.2.1 (by decide)

end FlightReceipt
